import Mathlib

/-!
Verification of the event-driven LP backtest engine
(`src/analytics/backtest_lp.py`) against its specification.

The source is Python over IEEE floats; the embedding idealises float
arithmetic as exact real arithmetic (`ℝ`), keeps ticks and timestamps as
`ℤ`, and models Python dicts as insertion-ordered association lists.
Definitions follow the source line by line; the few places where the
source raises an exception (unknown fee tier, missing amount argument)
are totalised with an inert default and marked with a comment, since the
specification classifies them as fatal configuration errors that no
verified property touches.
-/

open Classical

namespace BacktestLp

/-! ## Constants (source lines 23-35) -/

def CAPITAL_LIMIT_USD : ℝ := 20000
def POSITION_SIZE_USD : ℝ := 1000
def SL_PCT : ℝ := 0.02
def MIN_POOLS_FOR_REF : ℕ := 3

def Z_CANDIDATES : List ℝ := [1.25, 1.5, 1.75, 2.0, 2.5]
def WINDOW_MINUTES : List ℕ := [5, 10, 15]
def RANGE_PCT_CAND : List ℝ := [0.0005, 0.0010]

/-- `FEE_TIER_MAP`: fee rate per fee tier.  The source dict raises
`KeyError` on an unmapped tier (a fatal configuration error per the
spec); the embedding returns 0 there. -/
def FEE_TIER_MAP (fee : ℕ) : ℝ :=
  if fee = 100 then 0.0001 else if fee = 500 then 0.0005
  else if fee = 1000 then 0.0010 else if fee = 3000 then 0.0030 else 0

/-- `TICK_SPACING_MAP`: tick spacing per fee tier; same `KeyError`
totalisation as `FEE_TIER_MAP`. -/
def TICK_SPACING_MAP (fee : ℕ) : ℤ :=
  if fee = 100 then 1 else if fee = 500 then 10
  else if fee = 1000 then 20 else if fee = 3000 then 60 else 0

/-- `parse_fee_from_pool` (line 43-44): strips the token symbols and
parses the remaining digits.  `int(...)` raising `ValueError` is
totalised to 0. -/
def parse_fee_from_pool (pool : String) : ℕ :=
  ((((pool.replace "ETH" "").replace "USDC" "").replace "USDT" "").replace
      "DAI" "").toNat?.getD 0

/-! ## Price model (lines 46-50, 82-102) -/

/-- `usd_per_eth_from_tick` (line 46-47): `exp(-tick * log 1.0001)`. -/
noncomputable def usd_per_eth_from_tick (tick : ℤ) : ℝ :=
  Real.exp (-(tick : ℝ) * Real.log 1.0001)

/-- `sqrt_ratio_from_tick` (line 49-50): `1.0001 ** (tick / 2.0)`. -/
noncomputable def sqrt_ratio_from_tick (tick : ℤ) : ℝ :=
  (1.0001 : ℝ) ^ ((tick : ℝ) / 2)

/-- `L_from_amounts_single_side` (lines 82-89).  The source checks
`amount1` first, then `amount0`, and raises `ValueError` when both are
absent; that last branch is totalised to 0. -/
noncomputable def L_from_amounts_single_side (tick_l tick_u : ℤ)
    (amount0 amount1 : Option ℝ) : ℝ :=
  let sa := sqrt_ratio_from_tick tick_l
  let sb := sqrt_ratio_from_tick tick_u
  match amount1 with
  | some a1 => a1 / (sb - sa)
  | none =>
    match amount0 with
    | some a0 => a0 * (sa * sb) / (sb - sa)
    | none => 0

/-- `amounts_at_price` (lines 91-102): three-region valuation. -/
noncomputable def amounts_at_price (L : ℝ) (tick_l tick_u tick_now : ℤ) :
    ℝ × ℝ :=
  let sa := sqrt_ratio_from_tick tick_l
  let sb := sqrt_ratio_from_tick tick_u
  let s := sqrt_ratio_from_tick tick_now
  if tick_now ≤ tick_l then (L * (sb - sa) / (sa * sb), 0)
  else if tick_u ≤ tick_now then (0, L * (sb - sa))
  else (L * (sb - s) / (s * sb), L * (s - sa))

/-- `align_ticks_for_range` (lines 68-80).  `math.ceil` over float logs
is idealised as the integer ceiling of the exact real quotient; Python
`//` is floor division, i.e. `Int.fdiv`. -/
noncomputable def align_ticks_for_range (entry_tick : ℤ) (fee : ℕ)
    (target_pct : ℝ) (direction : String) : ℤ × ℤ :=
  let spacing := TICK_SPACING_MAP fee
  let width0 : ℤ := ⌈Real.log (1 + target_pct) / Real.log 1.0001⌉
  let width := max width0 spacing
  let lu : ℤ × ℤ :=
    if direction = "down" then
      let upper := (Int.fdiv entry_tick spacing) * spacing - spacing
      (upper - (Int.fdiv width spacing) * spacing, upper)
    else
      let lower := (Int.fdiv (entry_tick + spacing) spacing) * spacing
      (lower, lower + (Int.fdiv width spacing) * spacing)
  if lu.2 ≤ lu.1 then (lu.1, lu.1 + spacing) else lu

/-! ## Rolling statistics (lines 263-267) -/

/-- `np.mean` over a list of reals. -/
noncomputable def npMean (vals : List ℝ) : ℝ := vals.sum / vals.length

/-- `np.std(vals, ddof=1)`: Bessel-corrected sample standard deviation. -/
noncomputable def npStdDdof1 (vals : List ℝ) : ℝ :=
  Real.sqrt ((vals.map (fun x => (x - npMean vals) ^ 2)).sum /
    ((vals.length : ℝ) - 1))

/-- The z-score computation of lines 264-267: defined (`some`) exactly
when the window holds at least 10 samples and the sample standard
deviation exceeds `1e-12`; the division happens only under that guard. -/
noncomputable def zscore (vals : List ℝ) (d : ℝ) : Option ℝ :=
  if 10 ≤ vals.length then
    (if npStdDdof1 vals > 1e-12 then some ((d - npMean vals) / npStdDdof1 vals)
     else none)
  else none

/-- `np.median` over an unsorted list: sort, take the middle element
(odd length) or the mean of the two middle elements (even length). -/
noncomputable def median (xs : List ℝ) : ℝ :=
  let s := xs.insertionSort (· ≤ ·)
  let n := xs.length
  if n % 2 = 1 then s.getD (n / 2) 0
  else (s.getD (n / 2 - 1) 0 + s.getD (n / 2) 0) / 2

/-! ## Data model -/

/-- `Position` dataclass (lines 52-66).  The source field `open` is a
Lean keyword, written `«open»` here. -/
structure Position where
  pool : String
  fee : ℕ
  direction : String
  entry_ts : ℤ
  entry_tick : ℤ
  entry_price : ℝ
  tick_lower : ℤ
  tick_upper : ℤ
  L_user : ℝ
  notional : ℝ := POSITION_SIZE_USD
  ever_in_range : Bool := false
  «open» : Bool := true
  fees_usd : ℝ := 0

/-- The two shapes of dict appended to `trades`: the open snapshot
(lines 317-321, keys `signal_ts`, `signal_price`, `action`, `note` and
no `reason` key) and the close snapshot (lines 225-237 and 350-356,
with a `reason` key). -/
inductive TradeRec where
  | openRec (pool direction : String) (signal_ts : ℤ) (signal_price : ℝ)
      (tick_lower tick_upper : ℤ) (action note : String)
  | closeRec (pool direction : String) (entry_ts : ℤ) (entry_price : ℝ)
      (tick_lower tick_upper : ℤ) (exit_ts : ℤ) (exit_price : ℝ)
      (fees_usd pnl_usd : ℝ) (reason : String)

/-- The `reason` key of a trade dict, absent on open snapshots. -/
def TradeRec.reasonKey : TradeRec → Option String
  | .openRec .. => none
  | .closeRec _ _ _ _ _ _ _ _ _ _ r => some r

/-- The `action` key of a trade dict, absent on close snapshots. -/
def TradeRec.actionKey : TradeRec → Option String
  | .openRec _ _ _ _ _ _ a _ => some a
  | .closeRec .. => none

/-- One row of the cleaned event stream produced by `load_events`
(timestamp, pool, tick, swap `liquidity` — `none` models NaN — and the
precomputed `vol_usd`). -/
structure Event where
  timestamp : ℤ
  pool : String
  tick : ℤ
  liquidity : Option ℝ
  vol_usd : ℝ

/-- One grid cell's parameters of `backtest_lp`. -/
structure Params where
  z_entry : ℝ
  window_min : ℕ
  target_pct : ℝ

/-! Insertion-ordered association lists model Python dicts. -/

/-- Dict update `m[k] = v`: overwrite in place, else append. -/
def alSet {α : Type} : List (String × α) → String → α → List (String × α)
  | [], k, v => [(k, v)]
  | (k', v') :: rest, k, v =>
    if k' = k then (k, v) :: rest else (k', v') :: alSet rest k v

/-- Dict read `m.get(k, d)` / `defaultdict` read. -/
def alGetD {α : Type} : List (String × α) → String → α → α
  | [], _, d => d
  | (k', v') :: rest, k, d => if k' = k then v' else alGetD rest k d

/-- The mutable state of one `backtest_lp` run (lines 206-215).
`latestTs` has no dict in the source; it mirrors the per-pool last
timestamp that line 338 recovers by `groupby(...).last()`, which equals
the last event timestamp seen for the pool during the scan. -/
structure SimState where
  latestPrice : List (String × ℝ)
  latestTick : List (String × ℤ)
  latestTs : List (String × ℤ)
  diffs : List (String × List (ℤ × ℝ))
  positions : List Position
  equity : ℝ
  exposure : ℝ
  trades : List TradeRec
  hasOpen : List (String × Bool)

def initState : SimState :=
  { latestPrice := [], latestTick := [], latestTs := [], diffs := [],
    positions := [], equity := 0, exposure := 0, trades := [], hasOpen := [] }

/-! ## Position manager (lines 217-241, 269-296) -/

/-- The pnl a close at `(tickNow, priceNow)` realises (lines 219-221):
`value = amt0 + amt1 * price_now`, `pnl = (value - notional) + fees`. -/
noncomputable def closePnl (pos : Position) (tickNow : ℤ) (priceNow : ℝ) : ℝ :=
  let a := amounts_at_price pos.L_user pos.tick_lower pos.tick_upper tickNow
  ((a.1 + a.2 * priceNow) - pos.notional) + pos.fees_usd

/-- The close snapshot appended by `close_position` (lines 225-237). -/
noncomputable def closeTradeRec (pos : Position) (ts tickNow : ℤ)
    (priceNow : ℝ) (reason : String) : TradeRec :=
  .closeRec pos.pool pos.direction pos.entry_ts pos.entry_price
    pos.tick_lower pos.tick_upper ts priceNow pos.fees_usd
    (closePnl pos tickNow priceNow) reason

/-- `close_position` (lines 217-241): realise pnl into equity, release
the notional from exposure, mark the position closed, append the close
snapshot, clear the pool's open flag. -/
noncomputable def closePosition (ts tickNow : ℤ) (priceNow : ℝ)
    (reason : String) (st : SimState) (pos : Position) :
    SimState × Position :=
  ({ st with
      equity := st.equity + closePnl pos tickNow priceNow,
      exposure := st.exposure - pos.notional,
      trades := st.trades ++ [closeTradeRec pos ts tickNow priceNow reason],
      hasOpen := alSet st.hasOpen pos.pool false },
   { pos with «open» := false })

/-- The in-range fee accrual of lines 282-287: set `ever_in_range`,
accrue `vol_usd · fee_rate · share` with
`share = L_user / (L_active + L_user)` (0 when the sum is not
positive), `L_active` the event's swap liquidity (NaN as 0). -/
noncomputable def feeUpdate (ev : Event) (pos : Position) : Position :=
  let fee_rate := FEE_TIER_MAP pos.fee
  let L_activa := ev.liquidity.getD 0
  let share :=
    if L_activa + pos.L_user > 0 then pos.L_user / (L_activa + pos.L_user)
    else 0
  { pos with ever_in_range := true,
             fees_usd := pos.fees_usd + ev.vol_usd * fee_rate * share }

/-- The body of the management loop (lines 270-296) for one position:
skip when closed or another pool; else stop-loss, then fee accrual,
then passed-range, first close wins. -/
noncomputable def manageOne (ev : Event) (price : ℝ) (st : SimState)
    (pos : Position) : SimState × Position :=
  if pos.«open» = true ∧ pos.pool = ev.pool then
    let adverse := (price - pos.entry_price) / pos.entry_price
    if pos.direction = "down" ∧ adverse > SL_PCT then
      closePosition ev.timestamp ev.tick price "stop_loss" st pos
    else if pos.direction = "up" ∧ adverse < -SL_PCT then
      closePosition ev.timestamp ev.tick price "stop_loss" st pos
    else
      let pos1 :=
        if pos.tick_lower ≤ ev.tick ∧ ev.tick < pos.tick_upper then
          feeUpdate ev pos
        else pos
      if pos1.direction = "down" then
        (if pos1.ever_in_range = true ∧ ev.tick < pos1.tick_lower then
           closePosition ev.timestamp ev.tick price "passed_range" st pos1
         else (st, pos1))
      else
        (if pos1.ever_in_range = true ∧ pos1.tick_upper ≤ ev.tick then
           closePosition ev.timestamp ev.tick price "passed_range" st pos1
         else (st, pos1))
  else (st, pos)

/-- The `for pos in list(open_positions)` loop (line 270): each position
is processed in list order with the run state threaded through; the
list itself gains no and loses no element. -/
noncomputable def manageList (ev : Event) (price : ℝ) (st : SimState) :
    List Position → SimState × List Position
  | [] => (st, [])
  | pos :: rest =>
    let r1 := manageOne ev price st pos
    let r2 := manageList ev price r1.1 rest
    (r2.1, r1.2 :: r2.2)

/-- The open snapshot appended on entry (lines 317-321).  The source
formats the z value into the `note` string; the embedding abstracts the
formatted text, which no other part of the program reads. -/
def openTradeRec (pool direction : String) (ts : ℤ) (price : ℝ)
    (tl tu : ℤ) : TradeRec :=
  .openRec pool direction ts price tl tu "open" "z over threshold -> LP range"

/-- The entry rule (lines 299-321): a defined z-score beyond the
threshold, no open position on the pool, and room under the capital
limit open a new single-sided position of fixed notional. -/
noncomputable def entryStep (p : Params) (ev : Event) (price pref : ℝ)
    (z : Option ℝ) (st : SimState) : SimState :=
  match z with
  | none => st
  | some zv =>
    if |zv| > p.z_entry ∧ alGetD st.hasOpen ev.pool false = false then
      if st.exposure + POSITION_SIZE_USD ≤ CAPITAL_LIMIT_USD then
        let direction := if price > pref then "down" else "up"
        let fee := parse_fee_from_pool ev.pool
        let tt := align_ticks_for_range ev.tick fee p.target_pct direction
        let L :=
          if direction = "down" then
            L_from_amounts_single_side tt.1 tt.2 none
              (some (POSITION_SIZE_USD / price))
          else
            L_from_amounts_single_side tt.1 tt.2 (some POSITION_SIZE_USD) none
        let pos : Position :=
          { pool := ev.pool, fee := fee, direction := direction,
            entry_ts := ev.timestamp, entry_tick := ev.tick,
            entry_price := price, tick_lower := tt.1, tick_upper := tt.2,
            L_user := L }
        { st with
            positions := st.positions ++ [pos],
            hasOpen := alSet st.hasOpen ev.pool true,
            exposure := st.exposure + POSITION_SIZE_USD,
            trades := st.trades ++
              [openTradeRec ev.pool direction ev.timestamp price tt.1 tt.2] }
      else st
    else st

/-- One iteration of the event loop (lines 246-333): update the latest
price/tick, require the 3-pool warm-up, update the pool's deviation
window, compute the z-score, manage this pool's positions, then
evaluate entry. -/
noncomputable def step (p : Params) (st : SimState) (ev : Event) : SimState :=
  let price := usd_per_eth_from_tick ev.tick
  let st1 := { st with
      latestPrice := alSet st.latestPrice ev.pool price,
      latestTick := alSet st.latestTick ev.pool ev.tick,
      latestTs := alSet st.latestTs ev.pool ev.timestamp }
  if MIN_POOLS_FOR_REF ≤ st1.latestPrice.length then
    let pref := median (st1.latestPrice.map Prod.snd)
    let d := price - pref
    let dq := (alGetD st1.diffs ev.pool [] ++ [(ev.timestamp, d)]).dropWhile
                (fun e => (p.window_min : ℤ) * 60 < ev.timestamp - e.1)
    let st2 := { st1 with diffs := alSet st1.diffs ev.pool dq }
    let z := zscore (dq.map Prod.snd) d
    let r := manageList ev price st2 st2.positions
    entryStep p ev price pref z { r.1 with positions := r.2 }
  else st1

/-- The event scan of one run: the fold of `step` from the empty state. -/
noncomputable def runEvents (p : Params) (evs : List Event) : SimState :=
  evs.foldl (step p) initState

/-! ## End-of-data pass (lines 335-359) -/

/-- The pnl realised when a position is force-closed at end of data at
its pool's last observed tick and price (entry values as fallback,
mirroring `dict.get(pool, fallback)` on lines 341-343). -/
noncomputable def eodPnl (st : SimState) (pos : Position) : ℝ :=
  let p := alGetD st.latestPrice pos.pool pos.entry_price
  let tk := alGetD st.latestTick pos.pool pos.entry_tick
  let a := amounts_at_price pos.L_user pos.tick_lower pos.tick_upper tk
  ((a.1 + a.2 * p) - pos.notional) + pos.fees_usd

/-- The `eod` close snapshot (lines 350-356). -/
noncomputable def eodRec (st : SimState) (pos : Position) : TradeRec :=
  .closeRec pos.pool pos.direction pos.entry_ts pos.entry_price
    pos.tick_lower pos.tick_upper (alGetD st.latestTs pos.pool pos.entry_ts)
    (alGetD st.latestPrice pos.pool pos.entry_price) pos.fees_usd
    (eodPnl st pos) "eod"

/-- The body of the end-of-data loop for one position (lines 339-356).
Note the source does not clear `has_open` here. -/
noncomputable def eodOne (st : SimState) (pos : Position) :
    SimState × Position :=
  if pos.«open» = true then
    ({ st with
        equity := st.equity + eodPnl st pos,
        exposure := st.exposure - pos.notional,
        trades := st.trades ++ [eodRec st pos] },
     { pos with «open» := false })
  else (st, pos)

noncomputable def eodList (st : SimState) :
    List Position → SimState × List Position
  | [] => (st, [])
  | pos :: rest =>
    let r1 := eodOne st pos
    let r2 := eodList r1.1 rest
    (r2.1, r1.2 :: r2.2)

/-- The end-of-data pass over all positions (lines 339-359). -/
noncomputable def eodPass (st : SimState) : SimState :=
  let r := eodList st st.positions
  { r.1 with positions := r.2 }

/-- One full `backtest_lp` run: event scan then end-of-data pass. -/
noncomputable def runBacktest (p : Params) (evs : List Event) : SimState :=
  eodPass (runEvents p evs)

/-- The `roi` a run reports (line 361): `equity / CAPITAL_LIMIT_USD`. -/
noncomputable def backtestRoi (evs : List Event) (c : ℕ × ℝ × ℝ) : ℝ :=
  (runBacktest { z_entry := c.2.1, window_min := c.1, target_pct := c.2.2 }
      evs).equity / CAPITAL_LIMIT_USD

/-! ## Grid search (lines 387-400) -/

/-- The grid in the source's nested iteration order:
window (outer), then z threshold, then range width (inner). -/
def gridCombos : List (ℕ × ℝ × ℝ) :=
  WINDOW_MINUTES.flatMap fun W =>
    Z_CANDIDATES.flatMap fun z =>
      RANGE_PCT_CAND.map fun r => (W, z, r)

/-- One comparison of lines 396-399: the incumbent best is replaced
exactly when it is not yet set or the new roi is strictly greater. -/
noncomputable def bestStep {α : Type} (f : α → ℝ) :
    Option (α × ℝ) → α → Option (α × ℝ)
  | none, c => some (c, f c)
  | some (b, v), c => if f c > v then some (c, f c) else some (b, v)

/-- The incumbent-best fold of lines 387-400. -/
noncomputable def bestFold {α : Type} (f : α → ℝ) (l : List α) :
    Option (α × ℝ) :=
  l.foldl (bestStep f) none

/-- The grid search of `main` (lines 387-400) over one event stream. -/
noncomputable def gridMain (evs : List Event) : Option ((ℕ × ℝ × ℝ) × ℝ) :=
  bestFold (backtestRoi evs) gridCombos

/-! ## The range-planning formulas as claim C1 words them

`plan_range_claim` transcribes the claimed formulas (to be compared with
`align_ticks_for_range`, translated from the source): width
`ceil(ln(1+pct)/ln(1.0001))` floored to at least one spacing,
`round_down(w, s) = ⌊w/s⌋·s`, and for the `Above`/up direction
`lower = ⌈(t+s)/s⌉·s`.  `plan_range_amended` differs in one place: the
up-direction lower bound uses the floor, `⌊(t+s)/s⌋·s`, which is what
the source's `//` computes. -/

noncomputable def plan_range_claim (entry_tick : ℤ) (fee : ℕ)
    (target_pct : ℝ) (direction : String) : ℤ × ℤ :=
  let spacing := TICK_SPACING_MAP fee
  let width := max ⌈Real.log (1 + target_pct) / Real.log 1.0001⌉ spacing
  let rd := ⌊(width : ℚ) / (spacing : ℚ)⌋ * spacing
  if direction = "down" then
    let upper := ⌊(entry_tick : ℚ) / (spacing : ℚ)⌋ * spacing - spacing
    (upper - rd, upper)
  else
    let lower := ⌈((entry_tick + spacing : ℤ) : ℚ) / (spacing : ℚ)⌉ * spacing
    (lower, lower + rd)

noncomputable def plan_range_amended (entry_tick : ℤ) (fee : ℕ)
    (target_pct : ℝ) (direction : String) : ℤ × ℤ :=
  let spacing := TICK_SPACING_MAP fee
  let width := max ⌈Real.log (1 + target_pct) / Real.log 1.0001⌉ spacing
  let rd := ⌊(width : ℚ) / (spacing : ℚ)⌋ * spacing
  if direction = "down" then
    let upper := ⌊(entry_tick : ℚ) / (spacing : ℚ)⌋ * spacing - spacing
    (upper - rd, upper)
  else
    let lower := ⌊((entry_tick + spacing : ℤ) : ℚ) / (spacing : ℚ)⌋ * spacing
    (lower, lower + rd)

/-! ## Helper lemmas -/

/-! ### Association-list lemmas -/

lemma alGetD_set_eq {α : Type} (m : List (String × α)) (k : String) (v d : α) :
    alGetD (alSet m k v) k d = v := by
  induction m with
  | nil => simp [alSet, alGetD]
  | cons hd rest ih =>
    obtain ⟨k', v'⟩ := hd
    by_cases h : k' = k
    · simp [alSet, alGetD, h]
    · simp [alSet, alGetD, h, ih]

lemma alGetD_set_ne {α : Type} (k k' : String) (v d : α) (h : k' ≠ k) :
    ∀ m : List (String × α), alGetD (alSet m k v) k' d = alGetD m k' d
  | [] => by simp [alSet, alGetD, if_neg (Ne.symm h)]
  | (k0, v0) :: rest => by
    by_cases h0 : k0 = k
    · subst h0
      simp [alSet, alGetD, if_neg (Ne.symm h)]
    · by_cases h1 : k0 = k'
      · simp [alSet, alGetD, h0, h1, h]
      · simp [alSet, alGetD, h0, h1, alGetD_set_ne k k' v d h rest]

/-! ### Open-position accounting -/

/-- The sum of the notionals of the currently open positions. -/
def openNotionalSum (l : List Position) : ℝ :=
  ((l.filter (fun q => q.«open»)).map Position.notional).sum

/-- How many positions of a given pool are open. -/
def poolOpenCount (l : List Position) (pool : String) : ℕ :=
  l.countP (fun q => q.«open» && (q.pool == pool))

lemma openNotionalSum_nil : openNotionalSum [] = 0 := rfl

lemma openNotionalSum_cons (pos : Position) (l : List Position) :
    openNotionalSum (pos :: l) =
      (if pos.«open» = true then pos.notional else 0) + openNotionalSum l := by
  by_cases h : pos.«open» = true <;>
    simp [openNotionalSum, List.filter_cons, h]

lemma openNotionalSum_append (a b : List Position) :
    openNotionalSum (a ++ b) = openNotionalSum a + openNotionalSum b := by
  simp [openNotionalSum, List.filter_append]

lemma poolOpenCount_cons (pos : Position) (l : List Position) (pool : String) :
    poolOpenCount (pos :: l) pool =
      poolOpenCount l pool +
        (if pos.«open» = true ∧ pos.pool = pool then 1 else 0) := by
  simp only [poolOpenCount, List.countP_cons]
  by_cases h1 : pos.«open» = true <;> by_cases h2 : pos.pool = pool <;>
    simp [h1, h2]

lemma poolOpenCount_append (a b : List Position) (pool : String) :
    poolOpenCount (a ++ b) pool = poolOpenCount a pool + poolOpenCount b pool := by
  simp [poolOpenCount, List.countP_append]

/-- The per-run accounting invariant, over the exposure counter, the
per-pool open flags and a list of positions. -/
def InvE (exposure : ℝ) (hasOpen : List (String × Bool))
    (l : List Position) : Prop :=
  openNotionalSum l = exposure ∧
  (∀ pos ∈ l, pos.notional = POSITION_SIZE_USD) ∧
  exposure ≤ CAPITAL_LIMIT_USD ∧
  ∀ pool : String,
    poolOpenCount l pool = (if alGetD hasOpen pool false = true then 1 else 0)

/-- The run invariant of one `SimState`. -/
def Inv (s : SimState) : Prop := InvE s.exposure s.hasOpen s.positions

/-! ### What one management step does to one position -/

/-- The entry-time fields a later event never changes (all of the
`Position` record except `fees_usd`, `ever_in_range` and `open`). -/
def SameCore (p q : Position) : Prop :=
  q.pool = p.pool ∧ q.fee = p.fee ∧ q.direction = p.direction ∧
  q.entry_ts = p.entry_ts ∧ q.entry_tick = p.entry_tick ∧
  q.entry_price = p.entry_price ∧ q.tick_lower = p.tick_lower ∧
  q.tick_upper = p.tick_upper ∧ q.L_user = p.L_user ∧
  q.notional = p.notional

lemma sameCore_refl (p : Position) : SameCore p p :=
  ⟨rfl, rfl, rfl, rfl, rfl, rfl, rfl, rfl, rfl, rfl⟩

/-- `manageOne` either leaves the state alone and returns the position
with at most `fees_usd`/`ever_in_range` updated, or — only for an open
position of the event's pool — closes it with reason `stop_loss` or
`passed_range` through `closePosition`. -/
lemma manageOne_spec (ev : Event) (price : ℝ) (st : SimState)
    (pos : Position) :
    ∃ pos1 : Position,
      SameCore pos pos1 ∧ pos1.«open» = pos.«open» ∧
      (manageOne ev price st pos = (st, pos1) ∨
       (pos.«open» = true ∧ pos.pool = ev.pool ∧
        ∃ r, (r = "stop_loss" ∨ r = "passed_range") ∧
          manageOne ev price st pos =
            closePosition ev.timestamp ev.tick price r st pos1)) := by
  by_cases h1 : pos.«open» = true ∧ pos.pool = ev.pool
  · by_cases h2 : pos.direction = "down" ∧
        (price - pos.entry_price) / pos.entry_price > SL_PCT
    · exact ⟨pos, sameCore_refl pos, rfl,
        Or.inr ⟨h1.1, h1.2, "stop_loss", Or.inl rfl,
          by simp [manageOne, h1, h2]⟩⟩
    · by_cases h3 : pos.direction = "up" ∧
          (price - pos.entry_price) / pos.entry_price < -SL_PCT
      · exact ⟨pos, sameCore_refl pos, rfl,
          Or.inr ⟨h1.1, h1.2, "stop_loss", Or.inl rfl,
            by simp [manageOne, h1, h2, h3]⟩⟩
      · by_cases h4 : pos.tick_lower ≤ ev.tick ∧ ev.tick < pos.tick_upper
        · have hnl : ¬ev.tick < pos.tick_lower := not_lt.mpr h4.1
          have hnu : ¬pos.tick_upper ≤ ev.tick := not_le.mpr h4.2
          refine ⟨feeUpdate ev pos, ?_, rfl, Or.inl ?_⟩
          · exact ⟨rfl, rfl, rfl, rfl, rfl, rfl, rfl, rfl, rfl, rfl⟩
          · by_cases h5 : pos.direction = "down"
            · have hA : ¬(price - pos.entry_price) / pos.entry_price > SL_PCT :=
                fun ha => h2 ⟨h5, ha⟩
              simp [manageOne, feeUpdate, h1, h3, h4, h5, hnl, hnu, hA]
            · simp [manageOne, feeUpdate, h1, h2, h3, h4, h5, hnl, hnu]
        · by_cases h5 : pos.direction = "down"
          · have hA : ¬(price - pos.entry_price) / pos.entry_price > SL_PCT :=
              fun ha => h2 ⟨h5, ha⟩
            by_cases h6 : pos.ever_in_range = true ∧ ev.tick < pos.tick_lower
            · exact ⟨pos, sameCore_refl pos, rfl,
                Or.inr ⟨h1.1, h1.2, "passed_range", Or.inr rfl,
                  by simp [manageOne, h1, h3, h4, h5, h6, hA]⟩⟩
            · exact ⟨pos, sameCore_refl pos, rfl, Or.inl
                (by simp [manageOne, h1, h3, h4, h5, h6, hA])⟩
          · by_cases h6 : pos.ever_in_range = true ∧ pos.tick_upper ≤ ev.tick
            · exact ⟨pos, sameCore_refl pos, rfl,
                Or.inr ⟨h1.1, h1.2, "passed_range", Or.inr rfl,
                  by simp [manageOne, h1, h2, h3, h4, h5, h6]⟩⟩
            · exact ⟨pos, sameCore_refl pos, rfl, Or.inl
                (by simp [manageOne, h1, h2, h3, h4, h5, h6])⟩
  · exact ⟨pos, sameCore_refl pos, rfl, Or.inl (by simp [manageOne, h1])⟩

/-! ### Invariant preservation through the management loop -/

lemma openNotionalSum_middle (done rest : List Position) (p q : Position)
    (hopen : q.«open» = p.«open») (hnot : q.notional = p.notional) :
    openNotionalSum (done ++ q :: rest) = openNotionalSum (done ++ p :: rest) := by
  simp [openNotionalSum_append, openNotionalSum_cons, hopen, hnot]

lemma poolOpenCount_middle (done rest : List Position) (p q : Position)
    (pool : String) (hopen : q.«open» = p.«open») (hpool : q.pool = p.pool) :
    poolOpenCount (done ++ q :: rest) pool =
      poolOpenCount (done ++ p :: rest) pool := by
  simp [poolOpenCount_append, poolOpenCount_cons, hopen, hpool]

lemma notional_all_middle (done rest : List Position) (p q : Position)
    (hq : q.notional = p.notional)
    (h : ∀ x ∈ done ++ p :: rest, x.notional = POSITION_SIZE_USD) :
    ∀ x ∈ done ++ q :: rest, x.notional = POSITION_SIZE_USD := by
  intro x hx
  rcases List.mem_append.1 hx with hd | ht
  · exact h x (List.mem_append.2 (Or.inl hd))
  · rcases List.mem_cons.1 ht with rfl | hr
    · rw [hq]
      exact h p (List.mem_append.2 (Or.inr (List.mem_cons_self _ _)))
    · exact h x (List.mem_append.2 (Or.inr (List.mem_cons_of_mem _ hr)))

/-- One `manageOne` call preserves the accounting invariant over the
whole position list (processed prefix `done`, current position,
unprocessed `rest`). -/
lemma manageOne_invE (ev : Event) (price : ℝ) (st : SimState)
    (pos : Position) (done rest : List Position)
    (h : InvE st.exposure st.hasOpen (done ++ pos :: rest)) :
    InvE (manageOne ev price st pos).1.exposure
      (manageOne ev price st pos).1.hasOpen
      (done ++ (manageOne ev price st pos).2 :: rest) := by
  obtain ⟨hsum, hall, hcap, hcnt⟩ := h
  obtain ⟨pos1, hcore, hopen, hcase | hclose⟩ := manageOne_spec ev price st pos
  · rw [hcase]
    refine ⟨?_, notional_all_middle done rest pos pos1 hcore.2.2.2.2.2.2.2.2.2 hall,
      hcap, ?_⟩
    · rw [openNotionalSum_middle done rest pos pos1 hopen
        hcore.2.2.2.2.2.2.2.2.2]
      exact hsum
    · intro pool
      rw [poolOpenCount_middle done rest pos pos1 pool hopen hcore.1]
      exact hcnt pool
  · obtain ⟨hpo, hpp, r, _, heq⟩ := hclose
    rw [heq]
    have hnot1 : pos1.notional = pos.notional := hcore.2.2.2.2.2.2.2.2.2
    have hpool1 : pos1.pool = pos.pool := hcore.1
    have hposn : pos.notional = POSITION_SIZE_USD :=
      hall pos (List.mem_append.2 (Or.inr (List.mem_cons_self _ _)))
    simp only [closePosition]
    constructor
    · -- exposure bookkeeping
      have hdec : openNotionalSum (done ++ ({ pos1 with «open» := false }) :: rest) =
          openNotionalSum (done ++ pos :: rest) -
            (if pos.«open» = true then pos.notional else 0) := by
        simp [openNotionalSum_append, openNotionalSum_cons]
        ring
      rw [hdec, hsum, hpo, if_pos rfl, hnot1]
    refine ⟨notional_all_middle done rest pos ({ pos1 with «open» := false })
      (by simpa using hnot1) hall, ?_, ?_⟩
    · -- still under the capital limit
      have : (0 : ℝ) ≤ pos1.notional := by
        rw [hnot1, hposn]
        norm_num [POSITION_SIZE_USD]
      linarith
    · -- per-pool open counts
      intro pool
      by_cases hp : pool = pos1.pool
      · subst hp
        rw [alGetD_set_eq]
        have hold := hcnt pos1.pool
        have hdecomp : poolOpenCount (done ++ pos :: rest) pos1.pool =
            poolOpenCount done pos1.pool + poolOpenCount rest pos1.pool + 1 := by
          simp [poolOpenCount_append, poolOpenCount_cons, hpo, hpool1.symm]
          omega
        have hzero : poolOpenCount done pos1.pool = 0 ∧
            poolOpenCount rest pos1.pool = 0 := by
          rw [hdecomp] at hold
          by_cases hg : alGetD st.hasOpen pos1.pool false = true <;>
            simp [hg] at hold <;> omega
        have : poolOpenCount (done ++ ({ pos1 with «open» := false }) :: rest)
            pos1.pool = 0 := by
          simp [poolOpenCount_append, poolOpenCount_cons, hzero.1, hzero.2]
        rw [this]
        simp
      · rw [alGetD_set_ne _ _ _ _ hp]
        have hq1 : pos1.pool ≠ pool := fun hh => hp hh.symm
        have hppool : pos.pool ≠ pool := by
          rw [← hpool1]
          exact hq1
        have : poolOpenCount (done ++ ({ pos1 with «open» := false }) :: rest)
            pool = poolOpenCount (done ++ pos :: rest) pool := by
          simp [poolOpenCount_append, poolOpenCount_cons, hppool, hq1]
        rw [this]
        exact hcnt pool

/-- The whole management pass preserves the accounting invariant. -/
lemma manageList_invE (ev : Event) (price : ℝ) :
    ∀ (l : List Position) (st : SimState) (done : List Position),
      InvE st.exposure st.hasOpen (done ++ l) →
      InvE (manageList ev price st l).1.exposure
        (manageList ev price st l).1.hasOpen
        (done ++ (manageList ev price st l).2)
  | [], st, done, h => by simpa [manageList] using h
  | pos :: rest, st, done, h => by
    have h1 := manageOne_invE ev price st pos done rest h
    have h2 := manageList_invE ev price rest (manageOne ev price st pos).1
      (done ++ [(manageOne ev price st pos).2])
      (by simpa using h1)
    simp only [manageList]
    simpa using h2

/-- Appending a freshly opened position of fixed notional on a pool
with no open position preserves the accounting invariant. -/
lemma invE_open_append (exposure : ℝ) (hasOpen : List (String × Bool))
    (l : List Position) (newPos : Position)
    (h : InvE exposure hasOpen l)
    (hopen : newPos.«open» = true) (hnot : newPos.notional = POSITION_SIZE_USD)
    (hflag : alGetD hasOpen newPos.pool false = false)
    (hcap : exposure + POSITION_SIZE_USD ≤ CAPITAL_LIMIT_USD) :
    InvE (exposure + POSITION_SIZE_USD) (alSet hasOpen newPos.pool true)
      (l ++ [newPos]) := by
  obtain ⟨hsum, hall, _, hcnt⟩ := h
  refine ⟨?_, ?_, hcap, ?_⟩
  · rw [openNotionalSum_append, hsum, openNotionalSum_cons, openNotionalSum_nil,
      if_pos hopen, hnot]
    ring
  · intro x hx
    rcases List.mem_append.1 hx with hd | ht
    · exact hall x hd
    · rcases List.mem_cons.1 ht with rfl | hr
      · exact hnot
      · simp at hr
  · intro pool
    by_cases hp : pool = newPos.pool
    · subst hp
      rw [alGetD_set_eq]
      have h0 : poolOpenCount l newPos.pool = 0 := by
        rw [hcnt newPos.pool, hflag]
        simp
      rw [poolOpenCount_append, h0, poolOpenCount_cons]
      simp [hopen, poolOpenCount]
    · rw [alGetD_set_ne _ _ _ _ hp, poolOpenCount_append, poolOpenCount_cons]
      have : ¬(newPos.«open» = true ∧ newPos.pool = pool) :=
        fun hh => hp hh.2.symm
      simp only [poolOpenCount, List.countP_nil, this, if_neg, reduceIte]
      rw [← poolOpenCount, hcnt pool]
      simp

/-- The entry rule preserves the accounting invariant: it opens only
under the no-open-position flag and the capital-limit guard. -/
lemma entryStep_inv (p : Params) (ev : Event) (price pref : ℝ)
    (z : Option ℝ) (st : SimState) (h : Inv st) :
    Inv (entryStep p ev price pref z st) := by
  cases z with
  | none => exact h
  | some zv =>
    by_cases c1 : |zv| > p.z_entry ∧ alGetD st.hasOpen ev.pool false = false
    · by_cases c2 : st.exposure + POSITION_SIZE_USD ≤ CAPITAL_LIMIT_USD
      · show Inv _
        simp only [entryStep]
        rw [if_pos c1, if_pos c2]
        exact invE_open_append st.exposure st.hasOpen st.positions _ h rfl rfl
          c1.2 c2
      · simp only [Inv, entryStep]
        rw [if_pos c1, if_neg c2]
        exact h
    · simp only [Inv, entryStep]
      rw [if_neg c1]
      exact h

/-- One event-loop iteration preserves the accounting invariant. -/
lemma step_inv (p : Params) (st : SimState) (ev : Event) (h : Inv st) :
    Inv (step p st ev) := by
  dsimp only [step]
  split_ifs with hmin
  · apply entryStep_inv
    have h2 := manageList_invE ev (usd_per_eth_from_tick ev.tick)
      st.positions
      { st with
          latestPrice := alSet st.latestPrice ev.pool
            (usd_per_eth_from_tick ev.tick),
          latestTick := alSet st.latestTick ev.pool ev.tick,
          latestTs := alSet st.latestTs ev.pool ev.timestamp,
          diffs := alSet st.diffs ev.pool
            ((alGetD st.diffs ev.pool [] ++
                [(ev.timestamp, usd_per_eth_from_tick ev.tick -
                  median ((alSet st.latestPrice ev.pool
                    (usd_per_eth_from_tick ev.tick)).map Prod.snd))]).dropWhile
              (fun e => (p.window_min : ℤ) * 60 < ev.timestamp - e.1)) }
      [] (by simpa using h)
    simpa using h2
  · exact h

lemma inv_initState : Inv initState := by
  refine ⟨rfl, ?_, ?_, ?_⟩
  · intro pos hpos
    simp [initState] at hpos
  · norm_num [initState, CAPITAL_LIMIT_USD]
  · intro pool
    simp [initState, poolOpenCount, alGetD]

lemma foldl_step_inv (p : Params) :
    ∀ (evs : List Event) (st : SimState), Inv st →
      Inv (List.foldl (step p) st evs)
  | [], _, h => h
  | ev :: rest, st, h =>
    foldl_step_inv p rest (step p st ev) (step_inv p st ev h)

/-- The accounting invariant holds after any event prefix. -/
lemma runEvents_inv (p : Params) (pre : List Event) : Inv (runEvents p pre) :=
  foldl_step_inv p pre initState inv_initState

/-! ### The end-of-data pass -/

lemma eodPnl_congr (s1 s2 : SimState) (h1 : s1.latestPrice = s2.latestPrice)
    (h2 : s1.latestTick = s2.latestTick) (q : Position) :
    eodPnl s1 q = eodPnl s2 q := by
  simp [eodPnl, h1, h2]

lemma eodRec_congr (s1 s2 : SimState) (h1 : s1.latestPrice = s2.latestPrice)
    (h2 : s1.latestTick = s2.latestTick) (h3 : s1.latestTs = s2.latestTs)
    (q : Position) : eodRec s1 q = eodRec s2 q := by
  simp [eodRec, eodPnl_congr s1 s2 h1 h2, h1, h3]

/-- What the end-of-data loop does: closes exactly the still-open
positions, adds each one's `eodPnl` to equity, releases each one's
notional from exposure, and appends one `eod` close snapshot per closed
position. -/
lemma eodList_spec : ∀ (l : List Position) (st : SimState),
    (eodList st l).1.latestPrice = st.latestPrice ∧
    (eodList st l).1.latestTick = st.latestTick ∧
    (eodList st l).1.latestTs = st.latestTs ∧
    (eodList st l).1.equity =
      st.equity + ((l.filter (fun q => q.«open»)).map (eodPnl st)).sum ∧
    (eodList st l).1.exposure =
      st.exposure - ((l.filter (fun q => q.«open»)).map Position.notional).sum ∧
    (eodList st l).1.trades =
      st.trades ++ (l.filter (fun q => q.«open»)).map (eodRec st) ∧
    (∀ q ∈ (eodList st l).2, q.«open» = false) ∧
    (eodList st l).2.length = l.length
  | [], st => by simp [eodList]
  | pos :: rest, st => by
    by_cases hopen : pos.«open» = true
    · set S1 : SimState :=
        { st with
            equity := st.equity + eodPnl st pos,
            exposure := st.exposure - pos.notional,
            trades := st.trades ++ [eodRec st pos] } with hS1
      have hone : eodOne st pos = (S1, { pos with «open» := false }) := by
        simp [eodOne, hopen, hS1]
      obtain ⟨ih1, ih2, ih3, ih4, ih5, ih6, ih7, ih8⟩ := eodList_spec rest S1
      have hunfold : eodList st (pos :: rest) =
          ((eodList S1 rest).1,
           ({ pos with «open» := false }) :: (eodList S1 rest).2) := by
        simp only [eodList, hone]
      have hLP : S1.latestPrice = st.latestPrice := by rw [hS1]
      have hLT : S1.latestTick = st.latestTick := by rw [hS1]
      have hLS : S1.latestTs = st.latestTs := by rw [hS1]
      have hEq : S1.equity = st.equity + eodPnl st pos := by rw [hS1]
      have hEx : S1.exposure = st.exposure - pos.notional := by rw [hS1]
      have hTr : S1.trades = st.trades ++ [eodRec st pos] := by rw [hS1]
      have hmapP : (rest.filter (fun q => q.«open»)).map (eodPnl S1) =
          (rest.filter (fun q => q.«open»)).map (eodPnl st) :=
        List.map_congr_left fun q _ => eodPnl_congr S1 st hLP hLT q
      have hmapR : (rest.filter (fun q => q.«open»)).map (eodRec S1) =
          (rest.filter (fun q => q.«open»)).map (eodRec st) :=
        List.map_congr_left fun q _ => eodRec_congr S1 st hLP hLT hLS q
      have hfc : (pos :: rest).filter (fun q => q.«open») =
          pos :: rest.filter (fun q => q.«open») := by
        simp [List.filter_cons, hopen]
      rw [hunfold]
      refine ⟨ih1.trans hLP, ih2.trans hLT, ih3.trans hLS, ?_, ?_, ?_, ?_, ?_⟩
      · rw [ih4, hmapP, hEq, hfc]
        simp only [List.map_cons, List.sum_cons]
        ring
      · rw [ih5, hEx, hfc]
        simp only [List.map_cons, List.sum_cons]
        ring
      · rw [ih6, hmapR, hTr, hfc]
        simp
      · intro q hq
        rcases List.mem_cons.1 hq with rfl | hr
        · rfl
        · exact ih7 q hr
      · simp [ih8]
    · have hone : eodOne st pos = (st, pos) := by
        simp [eodOne, hopen]
      obtain ⟨ih1, ih2, ih3, ih4, ih5, ih6, ih7, ih8⟩ := eodList_spec rest st
      have hunfold : eodList st (pos :: rest) =
          ((eodList st rest).1, pos :: (eodList st rest).2) := by
        simp only [eodList, hone]
      have hfc : (pos :: rest).filter (fun q => q.«open») =
          rest.filter (fun q => q.«open») := by
        simp [List.filter_cons, hopen]
      rw [hunfold]
      refine ⟨ih1, ih2, ih3, ?_, ?_, ?_, ?_, ?_⟩
      · rw [ih4, hfc]
      · rw [ih5, hfc]
      · rw [ih6, hfc]
      · intro q hq
        rcases List.mem_cons.1 hq with rfl | hr
        · simpa using hopen
        · exact ih7 q hr
      · simp [ih8]

lemma eodPass_spec (st : SimState) :
    (∀ q ∈ (eodPass st).positions, q.«open» = false) ∧
    (eodPass st).positions.length = st.positions.length ∧
    (eodPass st).equity =
      st.equity + ((st.positions.filter (fun q => q.«open»)).map (eodPnl st)).sum ∧
    (eodPass st).exposure =
      st.exposure -
        ((st.positions.filter (fun q => q.«open»)).map Position.notional).sum ∧
    (eodPass st).trades =
      st.trades ++ (st.positions.filter (fun q => q.«open»)).map (eodRec st) := by
  obtain ⟨_, _, _, h4, h5, h6, h7, h8⟩ := eodList_spec st.positions st
  exact ⟨h7, h8, h4, h5, h6⟩

lemma openNotionalSum_all_closed (l : List Position)
    (h : ∀ q ∈ l, q.«open» = false) : openNotionalSum l = 0 := by
  have : l.filter (fun q => q.«open») = [] := by
    rw [List.filter_eq_nil_iff]
    intro a ha
    simp [h a ha]
  simp [openNotionalSum, this]

lemma width_00001 :
    ⌈Real.log (1 + (0.0001 : ℝ)) / Real.log 1.0001⌉ = (1 : ℤ) := by
  have h1 : (1 + 0.0001 : ℝ) = 1.0001 := by norm_num
  rw [h1, div_self (ne_of_gt (Real.log_pos (by norm_num)))]
  exact Int.ceil_one

lemma floorQ_fdiv (a : ℤ) {b : ℤ} (hb : 0 < b) :
    ⌊(a : ℚ) / (b : ℚ)⌋ = Int.fdiv a b := by
  obtain ⟨n, rfl⟩ : ∃ n : ℕ, b = n := ⟨b.toNat, (Int.toNat_of_nonneg hb.le).symm⟩
  rw [Int.fdiv_eq_ediv _ hb.le]
  exact_mod_cast Rat.floor_intCast_div_natCast a n

lemma sqrt_ratio_pos (t : ℤ) : 0 < sqrt_ratio_from_tick t :=
  Real.rpow_pos_of_pos (by norm_num) _

lemma sqrt_ratio_strictMono {a b : ℤ} (h : a < b) :
    sqrt_ratio_from_tick a < sqrt_ratio_from_tick b := by
  unfold sqrt_ratio_from_tick
  apply Real.rpow_lt_rpow_of_exponent_lt (by norm_num : (1 : ℝ) < 1.0001)
  have : (a : ℝ) < b := by exact_mod_cast h
  linarith

/-! ## Claim C1 (corrected) -/

/-- C1, counterexample: at entry tick 5, fee tier 500 (spacing 10),
target 0.01 % and direction up/`Above`, the code returns `(10, 20)`
while the claimed formula `lower = ⌈(t+s)/s⌉·s` gives `(20, 30)`:
the source's `//` is a floor, not a ceiling, and tick 5 is not
spacing-aligned. -/
theorem C1_counterexample :
    align_ticks_for_range 5 500 0.0001 "up" ≠
      plan_range_claim 5 500 0.0001 "up" ∧
    align_ticks_for_range 5 500 0.0001 "up" = (10, 20) ∧
    plan_range_claim 5 500 0.0001 "up" = (20, 30) := by
  have hcode : align_ticks_for_range 5 500 0.0001 "up" = (10, 20) := by
    unfold align_ticks_for_range
    rw [width_00001]
    norm_num [TICK_SPACING_MAP]
    decide
  have hclaim : plan_range_claim 5 500 0.0001 "up" = (20, 30) := by
    unfold plan_range_claim
    rw [width_00001]
    have hup : ("up" : String) ≠ "down" := by decide
    simp only [TICK_SPACING_MAP, if_neg, hup, reduceIte]
    norm_num
    have hc : ⌈(3 / 2 : ℚ)⌉ = (2 : ℤ) := by
      rw [Int.ceil_eq_iff]
      norm_num
    rw [hc]
    norm_num
  refine ⟨?_, hcode, hclaim⟩
  rw [hcode, hclaim]
  decide

/-- C1, amended: for every entry tick, mapped fee tier and direction,
`align_ticks_for_range` computes width
`w = max ⌈ln(1+pct)/ln(1.0001)⌉ s`, and returns for down/`Below`
`upper = ⌊t/s⌋·s − s`, `lower = upper − ⌊w/s⌋·s`, and for up/`Above`
`lower = ⌊(t+s)/s⌋·s` (floor, not the claimed ceiling),
`upper = lower + ⌊w/s⌋·s`; the degenerate-range clamp never fires
because `w ≥ s`. -/
theorem C1_align_matches_plan (entry_tick : ℤ) (fee : ℕ) (target_pct : ℝ)
    (direction : String) (hs : 0 < TICK_SPACING_MAP fee) :
    align_ticks_for_range entry_tick fee target_pct direction =
      plan_range_amended entry_tick fee target_pct direction := by
  unfold align_ticks_for_range plan_range_amended
  set s := TICK_SPACING_MAP fee with hsdef
  set w0 : ℤ := ⌈Real.log (1 + target_pct) / Real.log 1.0001⌉ with hw0
  have hws : s ≤ max w0 s := le_max_right _ _
  have hfd : 1 ≤ Int.fdiv (max w0 s) s := by
    rw [Int.fdiv_eq_ediv _ hs.le, Int.le_ediv_iff_mul_le hs]
    rw [one_mul]
    exact hws
  have hpos : 0 < Int.fdiv (max w0 s) s * s :=
    mul_pos (lt_of_lt_of_le one_pos hfd) hs
  by_cases hdir : direction = "down"
  · simp only [hdir, if_pos, reduceIte]
    rw [if_neg (by omega)]
    rw [floorQ_fdiv _ hs, floorQ_fdiv _ hs]
  · simp only [if_neg hdir]
    rw [if_neg (by omega)]
    rw [floorQ_fdiv _ hs, floorQ_fdiv _ hs]

/-- C1 amended, witness at a concrete input. -/
theorem C1_align_matches_plan_witness :
    0 < TICK_SPACING_MAP 500 ∧
    align_ticks_for_range 5 500 0.0001 "up" =
      plan_range_amended 5 500 0.0001 "up" :=
  ⟨by decide, C1_align_matches_plan 5 500 0.0001 "up" (by decide)⟩

/-! ## Claim C4 (sizing / valuation round trip) -/

/-- C4: in exact real arithmetic, single-sided sizing followed by
valuation at the side-consistent boundary recovers the funding amount:
a token1-only (`Below`) position valued at any `tick_now ≥ tick_u`
returns `(0, amount)`, and a token0-only (`Above`) position valued at
any `tick_now ≤ tick_l` returns `(amount, 0)`. -/
theorem C4_single_side_round_trip (tick_l tick_u tick_now : ℤ) (amount : ℝ)
    (hlu : tick_l < tick_u) (hamt : 0 < amount) :
    (tick_u ≤ tick_now →
      amounts_at_price
        (L_from_amounts_single_side tick_l tick_u none (some amount))
        tick_l tick_u tick_now = (0, amount)) ∧
    (tick_now ≤ tick_l →
      amounts_at_price
        (L_from_amounts_single_side tick_l tick_u (some amount) none)
        tick_l tick_u tick_now = (amount, 0)) := by
  have hsa := sqrt_ratio_pos tick_l
  have hsb := sqrt_ratio_pos tick_u
  have hlt := sqrt_ratio_strictMono hlu
  have hne : sqrt_ratio_from_tick tick_u - sqrt_ratio_from_tick tick_l ≠ 0 :=
    ne_of_gt (sub_pos.mpr hlt)
  constructor
  · intro hnow
    unfold amounts_at_price L_from_amounts_single_side
    rw [if_neg (by omega), if_pos hnow]
    simp only [Prod.mk.injEq, true_and]
    exact div_mul_cancel₀ amount hne
  · intro hnow
    unfold amounts_at_price L_from_amounts_single_side
    rw [if_pos hnow]
    simp only [Prod.mk.injEq, and_true]
    field_simp

/-- C4, witness at a concrete input. -/
theorem C4_single_side_round_trip_witness :
    (0 : ℤ) < 2 ∧ (0 : ℝ) < 1 ∧
    ((2 : ℤ) ≤ 2 →
      amounts_at_price (L_from_amounts_single_side 0 2 none (some 1))
        0 2 2 = (0, 1)) ∧
    ((2 : ℤ) ≤ 0 →
      amounts_at_price (L_from_amounts_single_side 0 2 (some 1) none)
        0 2 2 = (1, 0)) :=
  ⟨by decide, one_pos, C4_single_side_round_trip 0 2 2 1 (by decide) one_pos⟩

/-! ## Claims C2, C5, C8 (run invariants and end-of-data pass) -/

lemma poolOpenCount_all_closed (l : List Position)
    (h : ∀ q ∈ l, q.«open» = false) (pool : String) :
    poolOpenCount l pool = 0 := by
  rw [poolOpenCount, List.countP_eq_zero]
  intro q hq
  simp [h q hq]

/-- C2: after every event prefix of every stream and every parameter
choice, the exposure counter equals the sum of the notionals of the
positions currently open, every notional is the fixed 1,000 USD, and
exposure never exceeds the 20,000 USD capital limit; both facts persist
through the end-of-data pass (where exposure returns to the sum over
the then-empty open set). -/
theorem C2_exposure_invariant (p : Params) (evs : List Event) :
    (runEvents p evs).exposure =
      (((runEvents p evs).positions.filter (fun q => q.«open»)).map
        Position.notional).sum ∧
    (∀ pos ∈ (runEvents p evs).positions,
      pos.notional = POSITION_SIZE_USD) ∧
    (runEvents p evs).exposure ≤ CAPITAL_LIMIT_USD ∧
    (runBacktest p evs).exposure =
      (((runBacktest p evs).positions.filter (fun q => q.«open»)).map
        Position.notional).sum ∧
    (runBacktest p evs).exposure ≤ CAPITAL_LIMIT_USD := by
  obtain ⟨hsum, hall, hcap, hcnt⟩ := runEvents_inv p evs
  obtain ⟨e1, _, _, e3, _⟩ := eodPass_spec (runEvents p evs)
  have hz : (runBacktest p evs).exposure = 0 := by
    have : (runBacktest p evs).exposure =
        (runEvents p evs).exposure -
          openNotionalSum (runEvents p evs).positions := e3
    rw [this, hsum]
    ring
  refine ⟨hsum.symm, hall, hcap, ?_, ?_⟩
  · rw [hz]
    exact (openNotionalSum_all_closed _ e1).symm
  · rw [hz]
    norm_num [CAPITAL_LIMIT_USD]

/-- C5: at stream end every still-open position is force-closed: after
the pass no position is open and none is dropped; equity grows by each
open position's `eodPnl` (its `amounts_at_price` value at the pool's
last observed tick, plus accrued fees, minus the notional); each open
position's notional is released from exposure; and one close snapshot
per open position is appended, each carrying reason `eod` and the
pool's last observed tick/price (entry values only as fallback). -/
theorem C5_eod_forced_closure (p : Params) (evs : List Event) :
    (∀ q ∈ (runBacktest p evs).positions, q.«open» = false) ∧
    (runBacktest p evs).positions.length =
      (runEvents p evs).positions.length ∧
    (runBacktest p evs).equity =
      (runEvents p evs).equity +
        (((runEvents p evs).positions.filter (fun q => q.«open»)).map
          (eodPnl (runEvents p evs))).sum ∧
    (runBacktest p evs).exposure =
      (runEvents p evs).exposure -
        (((runEvents p evs).positions.filter (fun q => q.«open»)).map
          Position.notional).sum ∧
    (runBacktest p evs).trades =
      (runEvents p evs).trades ++
        ((runEvents p evs).positions.filter (fun q => q.«open»)).map
          (eodRec (runEvents p evs)) ∧
    (∀ pos : Position,
      (eodRec (runEvents p evs) pos).reasonKey = some "eod") :=
  ⟨(eodPass_spec (runEvents p evs)).1,
   (eodPass_spec (runEvents p evs)).2.1,
   (eodPass_spec (runEvents p evs)).2.2.1,
   (eodPass_spec (runEvents p evs)).2.2.2.1,
   (eodPass_spec (runEvents p evs)).2.2.2.2,
   fun _ => rfl⟩

/-- C8: after every event prefix each pool has at most one open
position; the per-pool flag is set exactly when one is open (so a pool
is eligible for a new entry exactly once its position closed); the
entry step leaves the state unchanged whenever the pool's flag is set;
and after the end-of-data pass no pool has an open position. -/
theorem C8_at_most_one_open_per_pool (p : Params) (evs : List Event)
    (pool : String) :
    poolOpenCount (runEvents p evs).positions pool ≤ 1 ∧
    (alGetD (runEvents p evs).hasOpen pool false = true ↔
      poolOpenCount (runEvents p evs).positions pool = 1) ∧
    poolOpenCount (runBacktest p evs).positions pool = 0 ∧
    (∀ (ev : Event) (price pref : ℝ) (z : Option ℝ) (st : SimState),
      alGetD st.hasOpen ev.pool false = true →
        entryStep p ev price pref z st = st) := by
  obtain ⟨_, _, _, hcnt⟩ := runEvents_inv p evs
  obtain ⟨e1, _⟩ := eodPass_spec (runEvents p evs)
  refine ⟨?_, ?_, poolOpenCount_all_closed _ e1 pool, ?_⟩
  · rw [hcnt pool]
    by_cases hg : alGetD (runEvents p evs).hasOpen pool false = true <;>
      simp [hg]
  · rw [hcnt pool]
    by_cases hg : alGetD (runEvents p evs).hasOpen pool false = true <;>
      simp [hg]
  · intro ev price pref z st hflag
    cases z with
    | none => rfl
    | some zv =>
      have hc1 : ¬(|zv| > p.z_entry ∧ alGetD st.hasOpen ev.pool false = false) := by
        intro hh
        rw [hflag] at hh
        exact absurd hh.2 (by simp)
      simp only [entryStep]
      rw [if_neg hc1]

/-! ## Claim C3 (stop-loss evaluated first) -/

/-- C3: for an open position of the event's pool whose stop-loss
condition holds (`adverse > 0.02` for a down position, `adverse <
−0.02` for an up position), `manageOne` is exactly the `stop_loss`
close: the position ends closed, its accrued fees are unchanged (no
fee from this event's volume), and the single appended snapshot
carries reason `stop_loss` — the passed-range branch is never reached,
even when its condition also holds. -/
theorem C3_stop_loss_first (ev : Event) (price : ℝ) (st : SimState)
    (pos : Position) (hopen : pos.«open» = true) (hpool : pos.pool = ev.pool)
    (hsl : (pos.direction = "down" ∧
            (price - pos.entry_price) / pos.entry_price > SL_PCT) ∨
           (pos.direction = "up" ∧
            (price - pos.entry_price) / pos.entry_price < -SL_PCT)) :
    manageOne ev price st pos =
      closePosition ev.timestamp ev.tick price "stop_loss" st pos ∧
    (manageOne ev price st pos).2.«open» = false ∧
    (manageOne ev price st pos).2.fees_usd = pos.fees_usd ∧
    (manageOne ev price st pos).1.trades =
      st.trades ++ [closeTradeRec pos ev.timestamp ev.tick price "stop_loss"] ∧
    (closeTradeRec pos ev.timestamp ev.tick price "stop_loss").reasonKey =
      some "stop_loss" := by
  have hmain : manageOne ev price st pos =
      closePosition ev.timestamp ev.tick price "stop_loss" st pos := by
    rcases hsl with ⟨hdir, hadv⟩ | ⟨hdir, hadv⟩
    · simp [manageOne, hopen, hpool, hdir, hadv]
    · have hnd : ¬(pos.direction = "down" ∧
          (price - pos.entry_price) / pos.entry_price > SL_PCT) := by
        intro hh
        rw [hdir] at hh
        exact absurd hh.1 (by decide)
      simp [manageOne, hopen, hpool, hdir, hadv, hnd]
  refine ⟨hmain, ?_, ?_, ?_, rfl⟩
  · rw [hmain]
    simp [closePosition]
  · rw [hmain]
    simp [closePosition]
  · rw [hmain]
    simp [closePosition]

/-- Concrete inputs for the C3 and C7 witnesses: an open down position
on pool `USDC500` with entry price 1, and an event on that pool whose
tick has also passed below the whole range. -/
def samplePos : Position :=
  ⟨"USDC500", 500, "down", 0, 0, 1, -20, -10, 1, 1000, true, true, 0⟩

def sampleEvent : Event := ⟨0, "USDC500", -300, none, 0⟩

/-- C3, witness: at price 2 the adverse move is 100 % > 2 %, and the
event's tick −300 also satisfies the passed-range condition, yet the
close is the stop-loss one. -/
theorem C3_stop_loss_first_witness :
    samplePos.«open» = true ∧ samplePos.pool = sampleEvent.pool ∧
    ((samplePos.direction = "down" ∧
      ((2 : ℝ) - samplePos.entry_price) / samplePos.entry_price > SL_PCT) ∨
     (samplePos.direction = "up" ∧
      ((2 : ℝ) - samplePos.entry_price) / samplePos.entry_price < -SL_PCT)) ∧
    (manageOne sampleEvent 2 initState samplePos =
      closePosition sampleEvent.timestamp sampleEvent.tick 2 "stop_loss"
        initState samplePos ∧
     (manageOne sampleEvent 2 initState samplePos).2.«open» = false ∧
     (manageOne sampleEvent 2 initState samplePos).2.fees_usd =
       samplePos.fees_usd ∧
     (manageOne sampleEvent 2 initState samplePos).1.trades =
       initState.trades ++
         [closeTradeRec samplePos sampleEvent.timestamp sampleEvent.tick 2
           "stop_loss"] ∧
     (closeTradeRec samplePos sampleEvent.timestamp sampleEvent.tick 2
       "stop_loss").reasonKey = some "stop_loss") :=
  ⟨rfl, rfl, Or.inl ⟨rfl, by norm_num [samplePos, SL_PCT]⟩,
   C3_stop_loss_first sampleEvent 2 initState samplePos rfl rfl
     (Or.inl ⟨rfl, by norm_num [samplePos, SL_PCT]⟩)⟩

/-! ## Claim C7 (z-score guard) -/

/-- C7: with fewer than 10 window samples or a sample standard
deviation within `1e-12` of zero, the z-score is `none` — the division
by σ sits under that guard in `zscore`, so no division is executed —
and the entry evaluation does nothing for the event. -/
theorem C7_zscore_guard (vals : List ℝ) (d : ℝ) (p : Params) (ev : Event)
    (price pref : ℝ) (st : SimState)
    (h : vals.length < 10 ∨ npStdDdof1 vals ≤ 1e-12) :
    zscore vals d = none ∧
    entryStep p ev price pref (zscore vals d) st = st := by
  have hz : zscore vals d = none := by
    unfold zscore
    split_ifs with h1 h2
    · rcases h with hlen | hsd
      · exact absurd h1 (not_le.mpr hlen)
      · exact absurd h2 (not_lt.mpr hsd)
    · rfl
    · rfl
  exact ⟨hz, by rw [hz]; rfl⟩

/-- C7, witness: the empty window. -/
theorem C7_zscore_guard_witness :
    (([] : List ℝ).length < 10 ∨ npStdDdof1 [] ≤ 1e-12) ∧
    (zscore [] 0 = none ∧
     entryStep ⟨1.25, 5, 0.0005⟩ sampleEvent 1 1 (zscore [] 0) initState =
       initState) :=
  ⟨Or.inl (by norm_num),
   C7_zscore_guard [] 0 ⟨1.25, 5, 0.0005⟩ sampleEvent 1 1 initState
     (Or.inl (by norm_num))⟩

/-! ## Claim C10 (entry-time fields are frozen) -/

/-- C10: every transformation a later event applies to a `Position` —
the per-event management step, an explicit close with any reason, and
the end-of-data close — preserves the ten entry-time fields `pool`,
`fee`, `direction`, `entry_ts`, `entry_tick`, `entry_price`,
`tick_lower`, `tick_upper`, `L_user`, `notional` (`SameCore`); only
`fees_usd`, `ever_in_range` and `open` ever change. -/
theorem C10_entry_fields_frozen (ev : Event) (price : ℝ) (st : SimState)
    (pos : Position) (ts tickNow : ℤ) (priceNow : ℝ) (reason : String) :
    SameCore pos (manageOne ev price st pos).2 ∧
    SameCore pos (closePosition ts tickNow priceNow reason st pos).2 ∧
    SameCore pos (eodOne st pos).2 := by
  refine ⟨?_, ⟨rfl, rfl, rfl, rfl, rfl, rfl, rfl, rfl, rfl, rfl⟩, ?_⟩
  · obtain ⟨pos1, hcore, _, hcase | ⟨_, _, r, _, heq⟩⟩ :=
      manageOne_spec ev price st pos
    · rw [hcase]
      exact hcore
    · rw [heq]
      exact hcore
  · by_cases h : pos.«open» = true <;> simp [eodOne, h, SameCore]

/-! ## Claim C9 (trade-record reasons) -/

/-- What the spec's reason set becomes on the records the source
actually appends: close snapshots carry one of the three close reasons;
the open snapshot carries `action = "open"` and no reason key. -/
def ValidTradeReason (t : TradeRec) : Prop :=
  (t.actionKey = some "open" ∧ t.reasonKey = none) ∨
  t.reasonKey = some "stop_loss" ∨ t.reasonKey = some "passed_range" ∨
  t.reasonKey = some "eod"

lemma manageOne_trades (ev : Event) (price : ℝ) (st : SimState)
    (pos : Position) :
    ∃ new : List TradeRec,
      (manageOne ev price st pos).1.trades = st.trades ++ new ∧
      ∀ t ∈ new, t.reasonKey = some "stop_loss" ∨
        t.reasonKey = some "passed_range" := by
  obtain ⟨pos1, _, _, hcase | ⟨_, _, r, hr, heq⟩⟩ :=
    manageOne_spec ev price st pos
  · exact ⟨[], by rw [hcase]; simp, by simp⟩
  · refine ⟨[closeTradeRec pos1 ev.timestamp ev.tick price r],
      by rw [heq]; simp [closePosition], ?_⟩
    intro t ht
    rcases List.mem_singleton.1 ht with rfl
    rcases hr with rfl | rfl
    · exact Or.inl rfl
    · exact Or.inr rfl

lemma manageList_trades (ev : Event) (price : ℝ) :
    ∀ (l : List Position) (st : SimState),
      ∃ new : List TradeRec,
        (manageList ev price st l).1.trades = st.trades ++ new ∧
        ∀ t ∈ new, t.reasonKey = some "stop_loss" ∨
          t.reasonKey = some "passed_range"
  | [], st => ⟨[], by simp [manageList], by simp⟩
  | pos :: rest, st => by
    obtain ⟨new1, h1, hv1⟩ := manageOne_trades ev price st pos
    obtain ⟨new2, h2, hv2⟩ :=
      manageList_trades ev price rest (manageOne ev price st pos).1
    refine ⟨new1 ++ new2, ?_, ?_⟩
    · simp only [manageList]
      rw [h2, h1, List.append_assoc]
    · intro t ht
      rcases List.mem_append.1 ht with ha | hb
      · exact hv1 t ha
      · exact hv2 t hb

lemma entryStep_trades (p : Params) (ev : Event) (price pref : ℝ)
    (z : Option ℝ) (st : SimState) :
    ∃ new : List TradeRec,
      (entryStep p ev price pref z st).trades = st.trades ++ new ∧
      ∀ t ∈ new, t.actionKey = some "open" ∧ t.reasonKey = none := by
  cases z with
  | none => exact ⟨[], by simp [entryStep], by simp⟩
  | some zv =>
    by_cases c1 : |zv| > p.z_entry ∧ alGetD st.hasOpen ev.pool false = false
    · by_cases c2 : st.exposure + POSITION_SIZE_USD ≤ CAPITAL_LIMIT_USD
      · refine ⟨[openTradeRec ev.pool (if price > pref then "down" else "up")
            ev.timestamp price
            (align_ticks_for_range ev.tick (parse_fee_from_pool ev.pool)
              p.target_pct (if price > pref then "down" else "up")).1
            (align_ticks_for_range ev.tick (parse_fee_from_pool ev.pool)
              p.target_pct (if price > pref then "down" else "up")).2],
          ?_, ?_⟩
        · simp only [entryStep]
          rw [if_pos c1, if_pos c2]
        · intro t ht
          rcases List.mem_singleton.1 ht with rfl
          exact ⟨rfl, rfl⟩
      · refine ⟨[], ?_, by simp⟩
        simp only [entryStep]
        rw [if_pos c1, if_neg c2]
        simp
    · refine ⟨[], ?_, by simp⟩
      simp only [entryStep]
      rw [if_neg c1]
      simp

lemma manage_entry_trades (p : Params) (ev : Event) (price pref : ℝ)
    (z : Option ℝ) (st : SimState) :
    ∃ new : List TradeRec,
      (entryStep p ev price pref z
        { (manageList ev price st st.positions).1 with
            positions := (manageList ev price st st.positions).2 }).trades =
        st.trades ++ new ∧
      ∀ t ∈ new, ValidTradeReason t := by
  obtain ⟨new1, h1, hv1⟩ := manageList_trades ev price st.positions st
  obtain ⟨new2, h2, hv2⟩ := entryStep_trades p ev price pref z
    { (manageList ev price st st.positions).1 with
        positions := (manageList ev price st st.positions).2 }
  refine ⟨new1 ++ new2, ?_, ?_⟩
  · rw [h2]
    have hmid : ({ (manageList ev price st st.positions).1 with
        positions := (manageList ev price st st.positions).2 } :
          SimState).trades = (manageList ev price st st.positions).1.trades :=
      rfl
    rw [hmid, h1, List.append_assoc]
  · intro t ht
    rcases List.mem_append.1 ht with ha | hb
    · rcases hv1 t ha with hh | hh
      · exact Or.inr (Or.inl hh)
      · exact Or.inr (Or.inr (Or.inl hh))
    · exact Or.inl (hv2 t hb)

lemma step_trades (p : Params) (st : SimState) (ev : Event) :
    ∃ new : List TradeRec,
      (step p st ev).trades = st.trades ++ new ∧
      ∀ t ∈ new, ValidTradeReason t := by
  dsimp only [step]
  split_ifs with hmin
  · exact manage_entry_trades p ev _ _ _ _
  · exact ⟨[], by simp, by simp⟩

lemma foldl_step_trades (p : Params) :
    ∀ (evs : List Event) (st : SimState),
      (∀ t ∈ st.trades, ValidTradeReason t) →
      ∀ t ∈ (List.foldl (step p) st evs).trades, ValidTradeReason t
  | [], _, h => h
  | ev :: rest, st, h => by
    obtain ⟨new, hnew, hval⟩ := step_trades p st ev
    refine foldl_step_trades p rest (step p st ev) ?_
    rw [hnew]
    intro t ht
    rcases List.mem_append.1 ht with h1 | h2
    · exact h t h1
    · exact hval t h2

/-- C9, counterexample: the snapshot the source appends on open (lines
317-321) has no `reason` key at all — it is labelled with
`action = "open"` and a note — so it does not carry reason
`signal_open` (nor any reason). -/
theorem C9_counterexample :
    (openTradeRec "USDC500" "down" 0 1 (-20) (-10)).reasonKey = none ∧
    ¬(openTradeRec "USDC500" "down" 0 1 (-20) (-10)).reasonKey =
        some "signal_open" :=
  ⟨rfl, by simp [openTradeRec, TradeRec.reasonKey]⟩

/-- C9, amended: every snapshot in the trade log of any run — during
the event scan and after the end-of-data pass — is either a close
snapshot whose reason lies in {`stop_loss`, `passed_range`, `eod`} or
the open snapshot, which carries `action = "open"` and no reason key
(rather than the claimed reason `signal_open`). -/
theorem C9_trade_reasons (p : Params) (evs : List Event) :
    (∀ t ∈ (runEvents p evs).trades, ValidTradeReason t) ∧
    (∀ t ∈ (runBacktest p evs).trades, ValidTradeReason t) ∧
    (∀ (pool direction : String) (ts : ℤ) (price : ℝ) (tl tu : ℤ),
      (openTradeRec pool direction ts price tl tu).actionKey = some "open" ∧
      (openTradeRec pool direction ts price tl tu).reasonKey = none) := by
  have hrun : ∀ t ∈ (runEvents p evs).trades, ValidTradeReason t :=
    foldl_step_trades p evs initState (by simp [initState])
  refine ⟨hrun, ?_, fun _ _ _ _ _ _ => ⟨rfl, rfl⟩⟩
  obtain ⟨_, _, _, _, e5⟩ := eodPass_spec (runEvents p evs)
  intro t ht
  rw [show (runBacktest p evs).trades = (eodPass (runEvents p evs)).trades
    from rfl, e5] at ht
  rcases List.mem_append.1 ht with h1 | h2
  · exact hrun t h1
  · obtain ⟨q, _, rfl⟩ := List.mem_map.1 h2
    exact Or.inr (Or.inr (Or.inr rfl))

/-! ## Claim C6 (grid search) -/

/-- Where the incumbent-best fold lands, starting from an incumbent
`c0`: either no strictly better candidate appears (ties keep `c0`), or
the final best is the first strictly-better-than-everything-before
candidate, weakly above everything after. -/
lemma bestFold_from {α : Type} (f : α → ℝ) :
    ∀ (l : List α) (c0 : α),
      ∃ c : α,
        List.foldl (bestStep f) (some (c0, f c0)) l = some (c, f c) ∧
        ((c = c0 ∧ ∀ x ∈ l, f x ≤ f c0) ∨
         (∃ pre suf, l = pre ++ c :: suf ∧ f c0 < f c ∧
           (∀ x ∈ pre, f x < f c) ∧ (∀ x ∈ suf, f x ≤ f c)))
  | [], c0 => ⟨c0, rfl, Or.inl ⟨rfl, by simp⟩⟩
  | x :: rest, c0 => by
    by_cases hx : f x > f c0
    · have hstep : List.foldl (bestStep f) (some (c0, f c0)) (x :: rest) =
          List.foldl (bestStep f) (some (x, f x)) rest := by
        simp [bestStep, hx]
      obtain ⟨c, hc, hcase⟩ := bestFold_from f rest x
      rcases hcase with ⟨rfl, hb⟩ | ⟨pre, suf, hsplit, hgt, hpre, hsuf⟩
      · exact ⟨c, by rw [hstep, hc], Or.inr ⟨[], rest, by simp, hx, by simp, hb⟩⟩
      · refine ⟨c, by rw [hstep, hc], Or.inr ⟨x :: pre, suf, by simp [hsplit],
          lt_trans hx hgt, ?_, hsuf⟩⟩
        intro y hy
        rcases List.mem_cons.1 hy with rfl | hmem
        · exact hgt
        · exact hpre y hmem
    · have hstep : List.foldl (bestStep f) (some (c0, f c0)) (x :: rest) =
          List.foldl (bestStep f) (some (c0, f c0)) rest := by
        simp [bestStep, hx]
      obtain ⟨c, hc, hcase⟩ := bestFold_from f rest c0
      rcases hcase with ⟨rfl, hb⟩ | ⟨pre, suf, hsplit, hgt, hpre, hsuf⟩
      · refine ⟨c, by rw [hstep, hc], Or.inl ⟨rfl, ?_⟩⟩
        intro y hy
        rcases List.mem_cons.1 hy with rfl | hmem
        · exact not_lt.1 hx
        · exact hb y hmem
      · refine ⟨c, by rw [hstep, hc], Or.inr ⟨x :: pre, suf, by simp [hsplit],
          hgt, ?_, hsuf⟩⟩
        intro y hy
        rcases List.mem_cons.1 hy with rfl | hmem
        · exact lt_of_le_of_lt (not_lt.1 hx) hgt
        · exact hpre y hmem

/-- The incumbent-best fold returns the earliest maximum: everything
iterated before it is strictly below, everything after weakly below. -/
lemma bestFold_spec {α : Type} (f : α → ℝ) :
    ∀ l : List α, l ≠ [] →
      ∃ c pre suf,
        bestFold f l = some (c, f c) ∧ l = pre ++ c :: suf ∧
        (∀ x ∈ pre, f x < f c) ∧ (∀ x ∈ suf, f x ≤ f c)
  | [], h => absurd rfl h
  | x :: rest, _ => by
    have hfirst : bestFold f (x :: rest) =
        List.foldl (bestStep f) (some (x, f x)) rest := by
      simp [bestFold, bestStep]
    obtain ⟨c, hc, hcase⟩ := bestFold_from f rest x
    rcases hcase with ⟨rfl, hb⟩ | ⟨pre, suf, hsplit, hgt, hpre, hsuf⟩
    · exact ⟨c, [], rest, by rw [hfirst, hc], rfl, by simp, hb⟩
    · refine ⟨c, x :: pre, suf, by rw [hfirst, hc], by simp [hsplit], ?_, hsuf⟩
      intro y hy
      rcases List.mem_cons.1 hy with rfl | hmem
      · exact hgt
      · exact hpre y hmem

/-- C6: the grid is the Cartesian product of the candidate windows,
z thresholds and range widths, iterated in the fixed nested order
window → z_entry → range_pct (spelled out below); one independent
simulation (`backtestRoi`, a pure function of the shared stream and
the cell) is evaluated per combination; and the returned combination
splits the grid so that every earlier combination has strictly smaller
roi (ties keep the earliest) and every later one has roi at most the
winner's. -/
theorem C6_grid_search (evs : List Event) :
    gridCombos =
      [(5, 1.25, 0.0005), (5, 1.25, 0.0010), (5, 1.5, 0.0005),
       (5, 1.5, 0.0010), (5, 1.75, 0.0005), (5, 1.75, 0.0010),
       (5, 2.0, 0.0005), (5, 2.0, 0.0010), (5, 2.5, 0.0005),
       (5, 2.5, 0.0010), (10, 1.25, 0.0005), (10, 1.25, 0.0010),
       (10, 1.5, 0.0005), (10, 1.5, 0.0010), (10, 1.75, 0.0005),
       (10, 1.75, 0.0010), (10, 2.0, 0.0005), (10, 2.0, 0.0010),
       (10, 2.5, 0.0005), (10, 2.5, 0.0010), (15, 1.25, 0.0005),
       (15, 1.25, 0.0010), (15, 1.5, 0.0005), (15, 1.5, 0.0010),
       (15, 1.75, 0.0005), (15, 1.75, 0.0010), (15, 2.0, 0.0005),
       (15, 2.0, 0.0010), (15, 2.5, 0.0005), (15, 2.5, 0.0010)] ∧
    ∃ c pre suf,
      gridMain evs = some (c, backtestRoi evs c) ∧
      gridCombos = pre ++ c :: suf ∧
      (∀ x ∈ pre, backtestRoi evs x < backtestRoi evs c) ∧
      (∀ x ∈ suf, backtestRoi evs x ≤ backtestRoi evs c) := by
  constructor
  · rfl
  · obtain ⟨c, pre, suf, h1, h2, h3, h4⟩ :=
      bestFold_spec (backtestRoi evs) gridCombos
        (by simp [gridCombos, WINDOW_MINUTES, Z_CANDIDATES, RANGE_PCT_CAND])
    exact ⟨c, pre, suf, h1, h2, h3, h4⟩

end BacktestLp
